import Mathlib

/-!
Shallow embedding of the LWE bit-encryption scheme from
`src/project/src/encryption/utils.ts` and `src/project/src/encryption/lwe.ts`.

JavaScript numbers are modelled as integers (`ℤ`) — every value the library
stores or computes on the verified paths is an integer.  The JavaScript `%`
operator on integers is truncated remainder, i.e. `Int.tmod`.  `Math.random()`
draws are modelled as an explicit oracle of rationals in `[0, 1)` threaded
through the sampling functions; the Marsaglia polar Gaussian body (a
floating-point rejection loop) is abstracted into an integer oracle, while its
input-validation guard is taken from the source.  Exceptions are modelled with
`Except`.
-/

namespace LWE

/-- The distinct parameter-validation errors thrown by the library
(each `throw new Error(...)` site gets its own tag). -/
inductive Err where
  | invalidDimension
  | modulusTooSmall
  | modulusNotPrime
  | invalidMessage
  | lengthMismatch
  | invalidSample
  | invalidRange
  | runtimeUndefined
  deriving DecidableEq, Repr

/-- View an `Except` as a `Sum`, to transport decidable equality. -/
def exceptToSum {ε α : Type} : Except ε α → ε ⊕ α
  | .error e => .inl e
  | .ok a => .inr a

instance {ε α : Type} [DecidableEq ε] [DecidableEq α] :
    DecidableEq (Except ε α) := fun x y =>
  decidable_of_iff (exceptToSum x = exceptToSum y)
    (by cases x <;> cases y <;> simp [exceptToSum])

/-- `type Vector = number[]` from `types.ts`. -/
abbrev Vec := List ℤ

/-- `mod(a, q)` from `utils.ts`: `((a % q) + q) % q` with JavaScript `%`,
i.e. truncated remainder `Int.tmod`. -/
def mod (a q : ℤ) : ℤ := (a.tmod q + q).tmod q

/-- `modVector(a, q)` from `utils.ts`: element-wise `mod`; takes a single
vector and a modulus, and never throws. -/
def modVector (a : Vec) (q : ℤ) : Vec := a.map (fun x => mod x q)

/-- `sumVectors(a, b)` from `utils.ts`. -/
def sumVectors (a b : Vec) : Except Err Vec :=
  if a.length ≠ b.length then .error .lengthMismatch
  else .ok (List.zipWith (· + ·) a b)

/-- `dotProduct(a, b)` from `utils.ts`. -/
def dotProduct (a b : Vec) : Except Err ℤ :=
  if a.length ≠ b.length then .error .lengthMismatch
  else .ok (List.zipWith (· * ·) a b).sum

/-- `isPrime(n)` from `utils.ts`: trial division by 2 and then by the odd
numbers `3, 5, …` up to `sqrt n`.  The loop `for (i = 3; i <= sqrtN; i += 2)`
is rendered as `List.range' 3 c 2` where `c` counts the odd candidates
`3 ≤ i ≤ Nat.sqrt n` (for an integer `i`, `i <= Math.sqrt n` is `i² ≤ n`,
i.e. `i ≤ Nat.sqrt n`). -/
def isPrime (k : ℤ) : Bool :=
  if k < 2 then false
  else if k = 2 then true
  else if k.tmod 2 = 0 then false
  else (List.range' 3 ((Nat.sqrt k.toNat - 1) / 2) 2).all
    (fun i => decide (k.toNat % i ≠ 0))

/-- The scan loop of `findPrimeInRange` from `utils.ts`:
`for (i = start; i <= b; i++) if (isPrime(i)) return i; return null`,
with the iteration count made explicit as fuel. -/
def findPrimeFrom (start : ℤ) : ℕ → Option ℤ
  | 0 => none
  | fuel + 1 => if isPrime start then some start else findPrimeFrom (start + 1) fuel

/-- `findPrimeInRange(a, b)` from `utils.ts`.  The source's
`Number.isInteger` guard is vacuous in this embedding since the bounds are
integers by type; the `a > b` guard (checked first in the source) remains. -/
def findPrimeInRange (a b : ℤ) : Except Err (Option ℤ) :=
  if a > b then .error .invalidRange
  else .ok (findPrimeFrom (max a 2) (b + 1 - max a 2).toNat)

/-- `chooseRandomSubset(set)` from `utils.ts`.  The per-item
`Math.random() < 0.5` coin flips are the oracle `coins`; the fallback draw
`Math.floor(Math.random() * set.length)` uses the oracle `r ∈ [0, 1)`.
The `none` branch of the array access cannot fire when `0 ≤ r < 1`. -/
def chooseRandomSubset {T : Type} (coins : ℕ → Bool) (r : ℚ) (set : List T) :
    List T :=
  let res := (set.enum.filter (fun p => coins p.1)).map (fun p => p.2)
  if res.isEmpty then
    match set.get? (Int.toNat ⌊r * (set.length : ℚ)⌋) with
    | some x => [x]
    | none => []
  else res

/-- `sampleUniform(q)` from `utils.ts`: `Math.floor(Math.random() * q)` with
the `Math.random()` draw `r` passed as an oracle. -/
def sampleUniform (q : ℤ) (r : ℚ) : Except Err ℤ :=
  if q ≤ 0 then .error .invalidSample
  else .ok ⌊r * (q : ℚ)⌋

/-- The sampling loop of `sampleUniformVector`: `n` sequential calls to
`sampleUniform(q)`, consuming the oracle draws `r off, r (off+1), …`. -/
def sampleUniformList (q : ℤ) (r : ℕ → ℚ) : ℕ → ℕ → Except Err (List ℤ)
  | _, 0 => .ok []
  | off, fuel + 1 =>
    match sampleUniform q (r off) with
    | .error e => .error e
    | .ok x =>
      match sampleUniformList q r (off + 1) fuel with
      | .error e => .error e
      | .ok rest => .ok (x :: rest)

/-- `sampleUniformVector(q, n)` from `utils.ts`. -/
def sampleUniformVector (q n : ℤ) (r : ℕ → ℚ) (off : ℕ) : Except Err (List ℤ) :=
  if n ≤ 0 then .error .invalidSample
  else sampleUniformList q r off n.toNat

/-- `sampleNormal(s)` from `utils.ts`: the `s <= 0` input-validation guard is
taken from the source; the Marsaglia polar rejection loop (floating-point,
unbounded) is abstracted into the oracle value `z`, an arbitrary integer
standing for the rounded Gaussian draw. -/
def sampleNormal (s : ℤ) (z : ℤ) : Except Err ℤ :=
  if s ≤ 0 then .error .invalidSample
  else .ok z

/-- `PublicKeyElement` from `types.ts`. -/
structure PublicKeyElement where
  vector : Vec
  scalar : ℤ
  deriving DecidableEq, Repr

/-- `PublicKey` from `types.ts`. -/
structure PublicKey where
  elements : List PublicKeyElement
  n : ℤ
  q : ℤ
  deriving DecidableEq, Repr

/-- `SecretKey` from `types.ts`. -/
structure SecretKey where
  vector : Vec
  n : ℤ
  q : ℤ
  deriving DecidableEq, Repr

/-- `type Ciphertext = PublicKeyElement` from `types.ts`. -/
abbrev Ciphertext := PublicKeyElement

/-- The sample count `m = Math.floor(n * Math.log(q))` of `keygen`
(`lwe.ts`), with `Math.log` as the real logarithm. -/
noncomputable def keygenM (n q : ℤ) : ℕ := ⌊(n : ℝ) * Real.log (q : ℝ)⌋₊

/-- The Gaussian scale `Math.floor(alpha * q)` of `keygen` (`lwe.ts`), where
`alpha = 1 / (Math.sqrt(n) * Math.pow(Math.log(n), 2))`. -/
noncomputable def noiseScale (n q : ℤ) : ℤ :=
  ⌊1 / (Real.sqrt (n : ℝ) * Real.log (n : ℝ) ^ 2) * (q : ℝ)⌋

/-- The public-key element loop of `keygen` (`lwe.ts`): iteration `i` draws a
fresh uniform vector (consuming oracle draws `(i+1)*n …`), a Gaussian noise
term `z i`, and stores `{vector, scalar: mod(dot + noise, q)}`. -/
def keygenElems (q n : ℤ) (sv : Vec) (scale : ℤ) (r : ℕ → ℚ) (z : ℕ → ℤ) :
    ℕ → ℕ → Except Err (List PublicKeyElement)
  | _, 0 => .ok []
  | i, fuel + 1 =>
    match sampleUniformVector q n r (n.toNat + i * n.toNat) with
    | .error e => .error e
    | .ok vec =>
      match sampleNormal scale (z i) with
      | .error e => .error e
      | .ok e =>
        match dotProduct vec sv with
        | .error err => .error err
        | .ok d =>
          match keygenElems q n sv scale r z (i + 1) fuel with
          | .error err => .error err
          | .ok rest => .ok (⟨vec, mod (d + e) q⟩ :: rest)

/-- `keygen(n, q)` from `lwe.ts`.  The three guards appear in source order;
`r` is the `Math.random()` oracle and `z` the Gaussian-draw oracle. -/
noncomputable def keygen (n q : ℤ) (r : ℕ → ℚ) (z : ℕ → ℤ) :
    Except Err (SecretKey × PublicKey) :=
  if n ≤ 1 then .error .invalidDimension
  else if q < n * n then .error .modulusTooSmall
  else if isPrime q = false then .error .modulusNotPrime
  else
    match sampleUniformVector q n r 0 with
    | .error e => .error e
    | .ok sv =>
      match keygenElems q n sv (noiseScale n q) r z 0 (keygenM n q) with
      | .error e => .error e
      | .ok elems => .ok (⟨sv, n, q⟩, ⟨elems, n, q⟩)

/-- The accumulation loop of `encrypt` (`lwe.ts`): starting from the first
selected element, add each further element's vector and fold its scalar in
with a per-step `mod`. -/
def encryptLoop (q : ℤ) : List PublicKeyElement → Ciphertext →
    Except Err Ciphertext
  | [], acc => .ok acc
  | el :: tl, acc =>
    match sumVectors acc.vector el.vector with
    | .error e => .error e
    | .ok v => encryptLoop q tl ⟨v, mod (acc.scalar + el.scalar) q⟩

/-- The body of `encrypt` (`lwe.ts`) after the random subset has been chosen:
accumulate the subset, add `Math.floor(q / 2)` when the message bit is 1, and
reduce the result mod `q`.  On the empty subset the source dereferences
`subset[0]` on `undefined`; that (unreachable) crash is `runtimeUndefined`. -/
def encryptWithSubset (q message : ℤ) (subset : List PublicKeyElement) :
    Except Err Ciphertext :=
  match subset with
  | [] => .error .runtimeUndefined
  | e0 :: tl =>
    match encryptLoop q tl ⟨e0.vector, e0.scalar⟩ with
    | .error e => .error e
    | .ok acc =>
      let s1 := if message = 1 then acc.scalar + q / 2 else acc.scalar
      .ok ⟨modVector acc.vector q, mod s1 q⟩

/-- `encrypt(publicKey, message)` from `lwe.ts`. -/
def encrypt (pk : PublicKey) (message : ℤ) (coins : ℕ → Bool) (r : ℚ) :
    Except Err Ciphertext :=
  if message ≠ 0 ∧ message ≠ 1 then .error .invalidMessage
  else encryptWithSubset pk.q message (chooseRandomSubset coins r pk.elements)

/-- `distToZero` of `decrypt` (`lwe.ts`): `Math.min(res, q - res)`. -/
def circDistZero (q res : ℤ) : ℤ := min res (q - res)

/-- `distToHalf` of `decrypt` (`lwe.ts`):
`Math.min(mod(res - half, q), mod(half - res, q))` with `half = ⌊q/2⌋`. -/
def circDistHalf (q res : ℤ) : ℤ :=
  min (mod (res - q / 2) q) (mod (q / 2 - res) q)

/-- `decrypt(secret, ciphertext)` from `lwe.ts`. -/
def decrypt (sk : SecretKey) (ct : Ciphertext) : Except Err ℤ :=
  match dotProduct ct.vector sk.vector with
  | .error e => .error e
  | .ok d =>
    let res := mod (ct.scalar - d) sk.q
    .ok (if circDistZero sk.q res < circDistHalf sk.q res then 0 else 1)

/-- Spec-side ciphertext scalar, following the specification's words for
`encrypt`: the full-precision sum of all selected elements' scalars, plus
`⌊q/2⌋` when the bit is 1, reduced mod `q` once at the end. -/
def encryptScalarSpec (q message : ℤ) (subset : List PublicKeyElement) : ℤ :=
  mod ((subset.map PublicKeyElement.scalar).sum +
    (if message = 1 then q / 2 else 0)) q

/-! ### Properties of `mod` -/

theorem neg_lt_tmod (a : ℤ) {q : ℤ} (hq : 0 < q) : -q < a.tmod q := by
  rcases a with m | m
  · have h0 : 0 ≤ (Int.ofNat m).tmod q := Int.tmod_nonneg q (Int.ofNat_nonneg m)
    omega
  · rcases q with k | k
    · have hk : 0 < k := by
        simp only [Int.ofNat_eq_coe] at hq
        exact_mod_cast hq
      have h1 : (Int.negSucc m).tmod (Int.ofNat k) = -(((m + 1) % k : ℕ) : ℤ) := rfl
      have h2 := Nat.mod_lt (m + 1) hk
      rw [h1]
      simp only [Int.ofNat_eq_coe]
      omega
    · have h3 := Int.negSucc_lt_zero k
      omega

theorem mod_eq_emod (a : ℤ) {q : ℤ} (hq : 0 < q) : mod a q = a % q := by
  have h0 : 0 ≤ a.tmod q + q := by have := neg_lt_tmod a hq; omega
  have h2 : a.tmod q = a - q * a.tdiv q := Int.tmod_def a q
  rw [mod, Int.tmod_eq_emod h0 (le_of_lt hq), h2]
  have h3 : a - q * a.tdiv q + q = a + q * (1 - a.tdiv q) := by ring
  rw [h3, Int.add_mul_emod_self_left]

theorem mod_bounds (a : ℤ) {q : ℤ} (hq : 0 < q) : 0 ≤ mod a q ∧ mod a q < q := by
  rw [mod_eq_emod a hq]
  exact ⟨Int.emod_nonneg a (by omega), Int.emod_lt_of_pos a hq⟩

theorem mod_mod_add_left {q : ℤ} (hq : 0 < q) (a b : ℤ) :
    mod (mod a q + b) q = mod (a + b) q := by
  rw [mod_eq_emod (mod a q + b) hq, mod_eq_emod a hq, Int.emod_add_emod,
    ← mod_eq_emod (a + b) hq]

/-- C5: for every integer `a` (including negative `a`) and every positive
integer `q`, `mod a q` lies in `[0, q)` and equals `((a % q) + q) % q` with
JavaScript truncated `%`; it agrees with the mathematical modulo, and
`mod (-1) 5 = 4`. -/
theorem mod_in_range_and_formula :
    (∀ a q : ℤ, 0 < q →
      0 ≤ mod a q ∧ mod a q < q ∧ mod a q = (a.tmod q + q).tmod q ∧
        mod a q = a % q) ∧
    mod (-1) 5 = 4 :=
  ⟨fun a q hq => ⟨(mod_bounds a hq).1, (mod_bounds a hq).2, rfl, mod_eq_emod a hq⟩,
    by decide⟩

/-- Witness for C5, at `a = -1`, `q = 5`. -/
theorem mod_in_range_and_formula_witness :
    (0 : ℤ) < 5 ∧
      (0 ≤ mod (-1) 5 ∧ mod (-1) 5 < 5 ∧
        mod (-1) 5 = ((-1 : ℤ).tmod 5 + 5).tmod 5 ∧ mod (-1) 5 = (-1 : ℤ) % 5) :=
  ⟨by decide, mod_in_range_and_formula.1 (-1) 5 (by decide)⟩

/-! ### Length-mismatch rejection (C4) -/

/-- C4 counterexample: `modVector` takes a single vector and a modulus — it
performs no length check and always returns a value, so the claim that it
rejects mismatched-length vector pairs with a length-mismatch error fails for
`modVector`; here it simply maps `mod` over its input and succeeds. -/
theorem modVector_total_cex : modVector [3, -1] 5 = [3, 4] := by decide

/-- C4 (amended): `sumVectors` and `dotProduct` reject every
mismatched-length pair with the length-mismatch error; `modVector` applies
`mod` element-wise to its single vector argument and never fails, returning a
vector of the input's length. -/
theorem length_mismatch_rejection :
    (∀ a b : Vec, a.length ≠ b.length →
      sumVectors a b = .error .lengthMismatch ∧
        dotProduct a b = .error .lengthMismatch) ∧
    ∀ (a : Vec) (q : ℤ), (modVector a q).length = a.length := by
  refine ⟨fun a b h => ⟨?_, ?_⟩, fun a q => ?_⟩
  · simp [sumVectors, h]
  · simp [dotProduct, h]
  · simp [modVector]

/-- Witness for C4 at `a = [1]`, `b = []`. -/
theorem length_mismatch_rejection_witness :
    ([(1 : ℤ)] : Vec).length ≠ ([] : Vec).length ∧
      (sumVectors [1] [] = .error .lengthMismatch ∧
        dotProduct [1] [] = .error .lengthMismatch) :=
  ⟨by decide, length_mismatch_rejection.1 [1] [] (by decide)⟩

/-! ### Decryption (C1) -/

/-- C1 counterexample: with `q = 5` the noisy value `mod (1 - 0) 5 = 1` is
equidistant from 0 and from `⌊q/2⌋ = 2` (both circular distances equal 1),
and `decrypt` returns 1 on this tie — not 0 as claimed. -/
theorem decrypt_tie_cex :
    circDistHalf 5 (mod ((1 : ℤ) - 0) 5) = circDistZero 5 (mod ((1 : ℤ) - 0) 5) ∧
      decrypt ⟨[0], 1, 5⟩ ⟨[0], 1⟩ = .ok 1 := by decide

/-- C1 (amended): for every secret key and ciphertext whose vectors have the
same length, `decrypt` computes `noisy = mod(scalar - dot, q)` and returns 0
when the circular distance from `noisy` to 0 is strictly smaller than the
circular distance from `noisy` to `⌊q/2⌋`, and returns 1 otherwise — so an
exact tie between the two distances yields 1. -/
theorem decrypt_nearest_codeword (sk : SecretKey) (ct : Ciphertext)
    (h : ct.vector.length = sk.vector.length) (noisy : ℤ)
    (hn : noisy =
      mod (ct.scalar - (List.zipWith (· * ·) ct.vector sk.vector).sum) sk.q) :
    decrypt sk ct =
      .ok (if circDistZero sk.q noisy < circDistHalf sk.q noisy then 0 else 1) ∧
    (circDistZero sk.q noisy < circDistHalf sk.q noisy → decrypt sk ct = .ok 0) ∧
    (circDistHalf sk.q noisy ≤ circDistZero sk.q noisy → decrypt sk ct = .ok 1) := by
  have hd : dotProduct ct.vector sk.vector =
      .ok (List.zipWith (· * ·) ct.vector sk.vector).sum := by
    simp [dotProduct, h]
  have hmain : decrypt sk ct =
      .ok (if circDistZero sk.q noisy < circDistHalf sk.q noisy then 0 else 1) := by
    simp only [decrypt, hd]
    rw [← hn]
  refine ⟨hmain, fun hlt => ?_, fun hle => ?_⟩
  · rw [hmain, if_pos hlt]
  · rw [hmain, if_neg (not_lt.mpr hle)]

/-- Witness for C1 (amended) at `sk = ⟨[0], 1, 5⟩`, `ct = ⟨[0], 1⟩`,
`noisy = 1`. -/
theorem decrypt_nearest_codeword_witness :
    ([(0 : ℤ)] : Vec).length = ([(0 : ℤ)] : Vec).length ∧
      ((1 : ℤ) =
        mod ((1 : ℤ) - (List.zipWith (· * ·) ([0] : Vec) ([0] : Vec)).sum) 5) ∧
      decrypt ⟨[0], 1, 5⟩ ⟨[0], 1⟩ =
        .ok (if circDistZero 5 1 < circDistHalf 5 1 then 0 else 1) :=
  ⟨rfl, by decide,
    (decrypt_nearest_codeword ⟨[0], 1, 5⟩ ⟨[0], 1⟩ rfl 1 (by decide)).1⟩

/-! ### Random subset selection (C8) -/

/-- C8: for every non-empty input list, with the fallback draw in the
`Math.random()` range `[0, 1)`, `chooseRandomSubset` returns a non-empty list
each of whose elements belongs to the input: the coin-flip pass may select
nothing, but the fallback then picks exactly one element of the input. -/
theorem chooseRandomSubset_nonempty {T : Type} (set : List T)
    (coins : ℕ → Bool) (r : ℚ) (hs : set ≠ []) (h0 : 0 ≤ r) (h1 : r < 1) :
    chooseRandomSubset coins r set ≠ [] ∧
      ∀ x ∈ chooseRandomSubset coins r set, x ∈ set := by
  have hmem : ∀ x ∈ (set.enum.filter (fun p => coins p.1)).map (fun p => p.2),
      x ∈ set := by
    intro x hx
    obtain ⟨p, hp, rfl⟩ := List.mem_map.1 hx
    have hpe : p ∈ set.enum := (List.mem_filter.1 hp).1
    exact List.getElem?_mem (List.mem_enum_iff_getElem?.1 hpe)
  have hlen : 0 < set.length := List.length_pos.2 hs
  unfold chooseRandomSubset
  by_cases he : ((set.enum.filter (fun p => coins p.1)).map (fun p => p.2)).isEmpty = true
  · rw [if_pos he]
    have hfl : (0 : ℤ) ≤ ⌊r * (set.length : ℚ)⌋ :=
      Int.floor_nonneg.2 (mul_nonneg h0 (by positivity))
    have hfu : ⌊r * (set.length : ℚ)⌋ < (set.length : ℤ) := by
      apply Int.floor_lt.2
      calc r * (set.length : ℚ) < 1 * (set.length : ℚ) := by
            apply mul_lt_mul_of_pos_right h1
            exact_mod_cast hlen
        _ = (set.length : ℚ) := one_mul _
    have hidx : Int.toNat ⌊r * (set.length : ℚ)⌋ < set.length := by omega
    rw [List.get?_eq_get hidx]
    refine ⟨by simp, ?_⟩
    intro x hx
    rw [List.mem_singleton.1 hx]
    exact List.get_mem set _ hidx
  · rw [if_neg he]
    refine ⟨fun hnil => he ?_, hmem⟩
    rw [hnil]
    rfl

/-- Witness for C8 at `set = [7]`, all-false coins, `r = 0` (the fallback
path fires and returns the single element). -/
theorem chooseRandomSubset_nonempty_witness :
    ([(7 : ℤ)] ≠ ([] : List ℤ)) ∧ ((0 : ℚ) ≤ 0) ∧ ((0 : ℚ) < 1) ∧
      (chooseRandomSubset (fun _ => false) 0 [(7 : ℤ)] ≠ [] ∧
        ∀ x ∈ chooseRandomSubset (fun _ => false) 0 [(7 : ℤ)], x ∈ [(7 : ℤ)]) :=
  ⟨by decide, by decide, by decide,
    chooseRandomSubset_nonempty [(7 : ℤ)] (fun _ => false) 0 (by decide)
      (by decide) (by decide)⟩

/-! ### Encryption scalar accumulation (C3) -/

theorem encryptLoop_ok_scalar {q : ℤ} (tl : List PublicKeyElement) :
    ∀ acc ct : Ciphertext, encryptLoop q tl acc = .ok ct →
      ct.scalar = tl.foldl (fun s el => mod (s + el.scalar) q) acc.scalar := by
  induction tl with
  | nil =>
    intro acc ct h
    simp only [encryptLoop] at h
    cases h
    rfl
  | cons el tl ih =>
    intro acc ct h
    simp only [encryptLoop] at h
    cases hsv : sumVectors acc.vector el.vector with
    | error e => rw [hsv] at h; exact absurd h (by simp)
    | ok v =>
      rw [hsv] at h
      simpa using ih _ _ h

theorem foldl_mod_scalar {q : ℤ} (hq : 0 < q) (l : List PublicKeyElement) :
    ∀ s b : ℤ,
      mod (l.foldl (fun t el => mod (t + el.scalar) q) s + b) q =
        mod (s + (l.map PublicKeyElement.scalar).sum + b) q := by
  induction l with
  | nil => intro s b; simp
  | cons el tl ih =>
    intro s b
    simp only [List.foldl_cons, List.map_cons, List.sum_cons]
    rw [ih (mod (s + el.scalar) q) b]
    have h1 : mod (s + el.scalar) q + (tl.map PublicKeyElement.scalar).sum + b =
        mod (s + el.scalar) q + ((tl.map PublicKeyElement.scalar).sum + b) := by
      ring
    rw [h1, mod_mod_add_left hq]
    have h2 : s + el.scalar + ((tl.map PublicKeyElement.scalar).sum + b) =
        s + (el.scalar + (tl.map PublicKeyElement.scalar).sum) + b := by
      ring
    rw [h2]

/-- C3: for every modulus `q > 0`, message bit, and non-empty selected subset
of public-key elements, the ciphertext scalar computed by the encryption body
(which reduces mod `q` once per accumulated element) equals the
specification's scalar — the full-precision sum of the selected scalars, plus
`⌊q/2⌋` when the bit is 1, reduced mod `q` once at the end.  `encrypt` is by
definition this body applied to the subset chosen by `chooseRandomSubset`. -/
theorem encrypt_scalar_single_final_reduction (q message : ℤ)
    (subset : List PublicKeyElement) (ct : Ciphertext) (hq : 0 < q)
    (_hbit : message = 0 ∨ message = 1) (hne : subset ≠ [])
    (hok : encryptWithSubset q message subset = .ok ct) :
    ct.scalar = encryptScalarSpec q message subset := by
  cases subset with
  | nil => exact absurd rfl hne
  | cons e0 tl =>
    simp only [encryptWithSubset] at hok
    cases hloop : encryptLoop q tl ⟨e0.vector, e0.scalar⟩ with
    | error e => rw [hloop] at hok; exact absurd hok (by simp)
    | ok acc =>
      rw [hloop] at hok
      simp only [] at hok
      cases hok
      have hacc := encryptLoop_ok_scalar tl _ _ hloop
      show mod (if message = 1 then acc.scalar + q / 2 else acc.scalar) q =
        encryptScalarSpec q message (e0 :: tl)
      unfold encryptScalarSpec
      by_cases hm : message = 1
      · rw [if_pos hm, if_pos hm, hacc]
        have := foldl_mod_scalar hq tl e0.scalar (q / 2)
        simp only [PublicKeyElement.scalar] at this ⊢
        rw [this]
        congr 1
      · rw [if_neg hm, if_neg hm, hacc]
        have h0 := foldl_mod_scalar hq tl e0.scalar 0
        rw [add_zero] at h0
        rw [h0]
        congr 1

/-- Witness for C3 at `q = 7`, `message = 1`,
`subset = [⟨[1], 3⟩, ⟨[2], 4⟩]`: the per-element reduction gives scalar
`mod (mod (3 + 4) 7 + 3) 7 = 3`, matching the single final reduction
`mod (3 + 4 + 3) 7 = 3`. -/
theorem encrypt_scalar_single_final_reduction_witness :
    (0 : ℤ) < 7 ∧ ((1 : ℤ) = 0 ∨ (1 : ℤ) = 1) ∧
      ([⟨[1], 3⟩, ⟨[2], 4⟩] : List PublicKeyElement) ≠ [] ∧
      encryptWithSubset 7 1 [⟨[1], 3⟩, ⟨[2], 4⟩] = .ok ⟨[3], 3⟩ ∧
      (⟨[3], 3⟩ : Ciphertext).scalar = encryptScalarSpec 7 1 [⟨[1], 3⟩, ⟨[2], 4⟩] :=
  ⟨by decide, Or.inr rfl, by decide, by decide,
    encrypt_scalar_single_final_reduction 7 1 [⟨[1], 3⟩, ⟨[2], 4⟩] ⟨[3], 3⟩
      (by decide) (Or.inr rfl) (by decide) (by decide)⟩

/-! ### Primality testing (C9) -/

theorem isPrime_nat_loop (n : ℕ) (h3 : 3 ≤ n) (hodd : n % 2 = 1) :
    ((List.range' 3 ((Nat.sqrt n - 1) / 2) 2).all
      (fun i => decide (n % i ≠ 0)) = true) ↔ Nat.Prime n := by
  rw [List.all_eq_true]
  constructor
  · intro hall
    rw [Nat.prime_def_le_sqrt]
    refine ⟨by omega, fun m hm2 hms hdvd => ?_⟩
    rcases Nat.even_or_odd m with hme | hmo
    · obtain ⟨k, hk⟩ := hme
      have h2n : (2 : ℕ) ∣ n := dvd_trans ⟨k, by omega⟩ hdvd
      obtain ⟨t, ht⟩ := h2n
      omega
    · obtain ⟨j, hj⟩ := hmo
      have hmem : m ∈ List.range' 3 ((Nat.sqrt n - 1) / 2) 2 := by
        rw [List.mem_range']
        exact ⟨j - 1, by omega, by omega⟩
      have hne := of_decide_eq_true (hall m hmem)
      obtain ⟨t, ht⟩ := hdvd
      rw [ht] at hne
      exact hne (Nat.mul_mod_right m t)
  · intro hp i hi
    rw [List.mem_range'] at hi
    obtain ⟨j, hjc, rfl⟩ := hi
    rw [decide_eq_true_eq]
    intro hmod
    have hdvd : (3 + 2 * j) ∣ n := Nat.dvd_of_mod_eq_zero hmod
    have hle : 3 + 2 * j ≤ Nat.sqrt n := by omega
    have hlt : Nat.sqrt n < n := Nat.sqrt_lt_self (by omega)
    rcases hp.eq_one_or_self_of_dvd _ hdvd with h1 | h1 <;> omega

theorem isPrime_iff (k : ℤ) : isPrime k = true ↔ Nat.Prime k.toNat := by
  by_cases h2 : k < 2
  · unfold isPrime
    rw [if_pos h2]
    constructor
    · intro h; cases h
    · intro hp
      have := hp.two_le
      omega
  · push_neg at h2
    lift k to ℕ using (by omega : (0 : ℤ) ≤ k) with n
    have hn2 : 2 ≤ n := by exact_mod_cast h2
    unfold isPrime
    simp only [Int.toNat_ofNat]
    rw [if_neg (by omega : ¬ ((n : ℤ) < 2))]
    by_cases he : n = 2
    · subst he
      rw [if_pos (by norm_num)]
      simpa using Nat.prime_two
    · rw [if_neg (by exact_mod_cast he : ¬ ((n : ℤ) = 2))]
      have htm : (n : ℤ).tmod 2 = ((n % 2 : ℕ) : ℤ) := (Int.ofNat_tmod n 2).symm
      by_cases hev : n % 2 = 0
      · rw [if_pos (by rw [htm]; exact_mod_cast hev)]
        constructor
        · intro h; cases h
        · intro hp
          rcases hp.eq_one_or_self_of_dvd 2 (Nat.dvd_of_mod_eq_zero hev) with h1 | h1 <;>
            omega
      · rw [if_neg (show ¬ ((n : ℤ).tmod 2 = 0) by
          rw [htm]; exact_mod_cast hev)]
        exact isPrime_nat_loop n (by omega) (by omega)

/-- C9: for every integer `k` in `[0, 10000]`, `isPrime k` agrees with the
mathematical definition of primality (it in fact does so for every integer);
in particular `isPrime 97 = true` and `isPrime 100 = false`. -/
theorem isPrime_agrees :
    (∀ k : ℤ, 0 ≤ k → k ≤ 10000 → (isPrime k = true ↔ Nat.Prime k.toNat)) ∧
      isPrime 97 = true ∧ isPrime 100 = false :=
  ⟨fun k _ _ => isPrime_iff k,
    (isPrime_iff 97).2 (by decide),
    by
      cases hb : isPrime 100 with
      | false => rfl
      | true => exact absurd ((isPrime_iff 100).1 hb) (by decide)⟩

/-- Witness for C9 at `k = 97`. -/
theorem isPrime_agrees_witness :
    (0 : ℤ) ≤ 97 ∧ (97 : ℤ) ≤ 10000 ∧
      (isPrime 97 = true ↔ Nat.Prime (97 : ℤ).toNat) :=
  ⟨by decide, by decide, isPrime_agrees.1 97 (by decide) (by decide)⟩

/-! ### Prime search (C7) -/

theorem isPrime_eq_false_iff (k : ℤ) : isPrime k = false ↔ ¬ Nat.Prime k.toNat := by
  rw [← isPrime_iff k]
  cases isPrime k <;> simp

theorem findPrimeFrom_eq_some (fuel : ℕ) :
    ∀ start p : ℤ,
      findPrimeFrom start fuel = some p ↔
        (start ≤ p ∧ p < start + (fuel : ℤ) ∧ isPrime p = true ∧
          ∀ x, start ≤ x → x < p → isPrime x = false) := by
  induction fuel with
  | zero =>
    intro start p
    constructor
    · intro h; cases h
    · rintro ⟨h1, h2, -, -⟩
      exact absurd h2 (by push_cast; omega)
  | succ fuel ih =>
    intro start p
    simp only [findPrimeFrom]
    by_cases hsp : isPrime start = true
    · rw [if_pos hsp]
      constructor
      · intro h
        injection h with h
        subst h
        exact ⟨le_refl _, by push_cast; omega, hsp,
          fun x hx1 hx2 => absurd hx2 (by omega)⟩
      · rintro ⟨h1, h2, h3, h4⟩
        by_cases hps : p = start
        · rw [hps]
        · have hc := h4 start (le_refl _) (by omega)
          rw [hsp] at hc
          cases hc
    · rw [if_neg hsp]
      have hfalse : isPrime start = false := by
        cases h : isPrime start
        · rfl
        · exact absurd h hsp
      rw [ih (start + 1) p]
      constructor
      · rintro ⟨h1, h2, h3, h4⟩
        refine ⟨by omega, by push_cast at h2 ⊢; omega, h3, fun x hx1 hx2 => ?_⟩
        by_cases hxs : x = start
        · rw [hxs]; exact hfalse
        · exact h4 x (by omega) hx2
      · rintro ⟨h1, h2, h3, h4⟩
        have hps : p ≠ start := by
          intro he
          exact hsp (he ▸ h3)
        exact ⟨by omega, by push_cast at h2 ⊢; omega, h3,
          fun x hx1 hx2 => h4 x (by omega) hx2⟩

theorem findPrimeFrom_eq_none (fuel : ℕ) :
    ∀ start : ℤ,
      findPrimeFrom start fuel = none ↔
        ∀ x, start ≤ x → x < start + (fuel : ℤ) → isPrime x = false := by
  induction fuel with
  | zero =>
    intro start
    constructor
    · intro _ x hx1 hx2
      exact absurd hx2 (by push_cast; omega)
    · intro _; rfl
  | succ fuel ih =>
    intro start
    simp only [findPrimeFrom]
    by_cases hsp : isPrime start = true
    · rw [if_pos hsp]
      constructor
      · intro h; cases h
      · intro h
        have hc := h start (le_refl _) (by push_cast; omega)
        rw [hsp] at hc
        cases hc
    · rw [if_neg hsp]
      have hfalse : isPrime start = false := by
        cases h : isPrime start
        · rfl
        · exact absurd h hsp
      rw [ih (start + 1)]
      constructor
      · intro h x hx1 hx2
        by_cases hxs : x = start
        · rw [hxs]; exact hfalse
        · exact h x (by omega) (by push_cast at hx2 ⊢; omega)
      · intro h x hx1 hx2
        exact h x (by omega) (by push_cast at hx2 ⊢; omega)

/-- C7: `findPrimeInRange a b` fails with the invalid-range error when
`a > b` (non-integer bounds do not exist in this integer embedding); for
`a ≤ b` it returns the smallest prime in `[max a 2, b]`, or `none` when that
interval contains no prime; in particular `findPrimeInRange 10 20 = 11`,
`findPrimeInRange 8 10` is not-found, and `findPrimeInRange 2 2 = 2`. -/
theorem findPrimeInRange_linear_scan :
    (∀ a b : ℤ, a > b → findPrimeInRange a b = .error .invalidRange) ∧
    (∀ a b p : ℤ, a ≤ b →
      (findPrimeInRange a b = .ok (some p) ↔
        (max a 2 ≤ p ∧ p ≤ b ∧ Nat.Prime p.toNat ∧
          ∀ x, max a 2 ≤ x → x < p → ¬ Nat.Prime x.toNat))) ∧
    (∀ a b : ℤ, a ≤ b →
      (findPrimeInRange a b = .ok none ↔
        ∀ x, max a 2 ≤ x → x ≤ b → ¬ Nat.Prime x.toNat)) ∧
    findPrimeInRange 10 20 = .ok (some 11) ∧
    findPrimeInRange 8 10 = .ok none ∧
    findPrimeInRange 2 2 = .ok (some 2) := by
  have herr : ∀ a b : ℤ, a > b → findPrimeInRange a b = .error .invalidRange := by
    intro a b h
    unfold findPrimeInRange
    rw [if_pos h]
  have hcast : ∀ a b : ℤ, a ≤ b →
      ((((b + 1 - max a 2).toNat : ℤ)) = max (b + 1 - max a 2) 0) := by
    intro a b _
    exact_mod_cast Int.toNat_eq_max (b + 1 - max a 2)
  have hsome : ∀ a b p : ℤ, a ≤ b →
      (findPrimeInRange a b = .ok (some p) ↔
        (max a 2 ≤ p ∧ p ≤ b ∧ Nat.Prime p.toNat ∧
          ∀ x, max a 2 ≤ x → x < p → ¬ Nat.Prime x.toNat)) := by
    intro a b p hab
    unfold findPrimeInRange
    rw [if_neg (by omega), Except.ok.injEq,
      findPrimeFrom_eq_some ((b + 1 - max a 2).toNat) (max a 2) p]
    have hc := hcast a b hab
    constructor
    · rintro ⟨h1, h2, h3, h4⟩
      exact ⟨h1, by omega, (isPrime_iff p).1 h3,
        fun x hx1 hx2 => (isPrime_eq_false_iff x).1 (h4 x hx1 hx2)⟩
    · rintro ⟨h1, h2, h3, h4⟩
      exact ⟨h1, by omega, (isPrime_iff p).2 h3,
        fun x hx1 hx2 => (isPrime_eq_false_iff x).2 (h4 x hx1 hx2)⟩
  have hnone : ∀ a b : ℤ, a ≤ b →
      (findPrimeInRange a b = .ok none ↔
        ∀ x, max a 2 ≤ x → x ≤ b → ¬ Nat.Prime x.toNat) := by
    intro a b hab
    unfold findPrimeInRange
    rw [if_neg (by omega), Except.ok.injEq,
      findPrimeFrom_eq_none ((b + 1 - max a 2).toNat) (max a 2)]
    have hc := hcast a b hab
    constructor
    · intro h x hx1 hx2
      exact (isPrime_eq_false_iff x).1 (h x hx1 (by omega))
    · intro h x hx1 hx2
      exact (isPrime_eq_false_iff x).2 (h x hx1 (by omega))
  refine ⟨herr, hsome, hnone, ?_, ?_, ?_⟩
  · refine (hsome 10 20 11 (by omega)).2 ⟨by omega, by omega, by decide, ?_⟩
    intro x hx1 hx2
    have hx : x = 10 := by omega
    subst hx
    decide
  · refine (hnone 8 10 (by omega)).2 ?_
    intro x hx1 hx2
    have hx : x = 8 ∨ x = 9 ∨ x = 10 := by omega
    rcases hx with hx | hx | hx <;> subst hx <;> decide
  · refine (hsome 2 2 2 (by omega)).2 ⟨by omega, by omega, by decide, ?_⟩
    intro x hx1 hx2
    exact absurd hx2 (by omega)

/-- Witness for C7 at `a = 3 > b = 2` (the invalid-range branch). -/
theorem findPrimeInRange_linear_scan_witness :
    (3 : ℤ) > 2 ∧ findPrimeInRange 3 2 = .error .invalidRange :=
  ⟨by decide, findPrimeInRange_linear_scan.1 3 2 (by decide)⟩

/-! ### The noise scale is at least 1 for valid parameters (C10, C2, C6) -/

theorem sqrt_mul_log_sq_le (n : ℤ) (hn : 2 ≤ n) :
    0 < Real.sqrt (n : ℝ) * Real.log (n : ℝ) ^ 2 ∧
      Real.sqrt (n : ℝ) * Real.log (n : ℝ) ^ 2 ≤ ((n : ℝ)) ^ 2 := by
  have hn' : (2 : ℝ) ≤ (n : ℝ) := by exact_mod_cast hn
  have hn0 : (0 : ℝ) < (n : ℝ) := by linarith
  set t := Real.sqrt (n : ℝ) with ht
  have ht2 : t ^ 2 = (n : ℝ) := Real.sq_sqrt (le_of_lt hn0)
  have ht0 : 0 ≤ t := Real.sqrt_nonneg _
  have ht1 : 1 ≤ t := by nlinarith
  have htpos : 0 < t := by linarith
  have hlog2 : Real.log (n : ℝ) = 2 * Real.log t := by
    have hls := Real.log_sqrt (le_of_lt hn0)
    rw [← ht] at hls
    linarith
  have hlt : Real.log t ≤ t - 1 := Real.log_le_sub_one_of_pos htpos
  have hltnn : 0 ≤ Real.log t := Real.log_nonneg ht1
  have hlpos : 0 < Real.log (n : ℝ) := Real.log_pos (by linarith)
  constructor
  · exact mul_pos htpos (pow_pos hlpos 2)
  · have hkey : 4 * (t - 1) ^ 2 ≤ t ^ 3 := by
      nlinarith [mul_nonneg (sub_nonneg.2 ht1) (sq_nonneg (t - 3 / 2))]
    have hsq : Real.log t ^ 2 ≤ (t - 1) ^ 2 := by nlinarith
    calc t * Real.log (n : ℝ) ^ 2 = t * (4 * Real.log t ^ 2) := by rw [hlog2]; ring
      _ ≤ t * (4 * (t - 1) ^ 2) := by nlinarith
      _ ≤ t * t ^ 3 := by nlinarith
      _ = (t ^ 2) ^ 2 := by ring
      _ = ((n : ℝ)) ^ 2 := by rw [ht2]

theorem one_le_noiseScale (n q : ℤ) (hn : 2 ≤ n) (hq : n * n ≤ q) :
    1 ≤ noiseScale n q := by
  obtain ⟨hdpos, hdle⟩ := sqrt_mul_log_sq_le n hn
  have hq' : ((n : ℝ)) ^ 2 ≤ (q : ℝ) := by
    have hc : ((n * n : ℤ) : ℝ) ≤ (q : ℝ) := by exact_mod_cast hq
    push_cast at hc
    nlinarith
  unfold noiseScale
  rw [Int.le_floor]
  push_cast
  rw [one_div_mul_eq_div, le_div_iff₀ hdpos, one_mul]
  linarith

/-! ### Sampling and key generation (C2, C6, C10) -/

theorem sampleUniform_ok {q : ℤ} (hq : 0 < q) (r : ℚ) :
    sampleUniform q r = .ok ⌊r * (q : ℚ)⌋ := by
  unfold sampleUniform
  rw [if_neg (by omega)]

theorem sampleUniform_bounds {q : ℤ} (hq : 0 < q) {r : ℚ} (h0 : 0 ≤ r)
    (h1 : r < 1) : 0 ≤ ⌊r * (q : ℚ)⌋ ∧ ⌊r * (q : ℚ)⌋ < q := by
  constructor
  · exact Int.floor_nonneg.2 (mul_nonneg h0 (by exact_mod_cast le_of_lt hq))
  · apply Int.floor_lt.2
    calc r * (q : ℚ) < 1 * (q : ℚ) := mul_lt_mul_of_pos_right h1 (by exact_mod_cast hq)
      _ = (q : ℚ) := one_mul _

theorem sampleUniformList_ok {q : ℤ} (hq : 0 < q) (r : ℕ → ℚ) :
    ∀ fuel off : ℕ, ∃ v : List ℤ,
      sampleUniformList q r off fuel = .ok v ∧ v.length = fuel ∧
        ((∀ i, 0 ≤ r i ∧ r i < 1) → ∀ x ∈ v, 0 ≤ x ∧ x < q) := by
  intro fuel
  induction fuel with
  | zero =>
    intro off
    exact ⟨[], rfl, rfl, fun _ x hx => absurd hx (List.not_mem_nil x)⟩
  | succ fuel ih =>
    intro off
    obtain ⟨v, hv, hlen, hbnd⟩ := ih (off + 1)
    refine ⟨⌊r off * (q : ℚ)⌋ :: v, ?_, by simp [hlen], ?_⟩
    · simp only [sampleUniformList, sampleUniform_ok hq, hv]
    · intro hr x hx
      rcases List.mem_cons.1 hx with hx | hx
      · subst hx
        exact sampleUniform_bounds hq (hr off).1 (hr off).2
      · exact hbnd hr x hx

theorem sampleUniformVector_ok {q n : ℤ} (hq : 0 < q) (hn : 0 < n)
    (r : ℕ → ℚ) (off : ℕ) : ∃ v : List ℤ,
      sampleUniformVector q n r off = .ok v ∧ v.length = n.toNat ∧
        ((∀ i, 0 ≤ r i ∧ r i < 1) → ∀ x ∈ v, 0 ≤ x ∧ x < q) := by
  obtain ⟨v, hv, hlen, hbnd⟩ := sampleUniformList_ok hq r n.toNat off
  refine ⟨v, ?_, hlen, hbnd⟩
  unfold sampleUniformVector
  rw [if_neg (by omega)]
  exact hv

theorem dotProduct_ok {a b : Vec} (h : a.length = b.length) :
    dotProduct a b = .ok (List.zipWith (· * ·) a b).sum := by
  simp [dotProduct, h]

theorem keygenElems_ok {q n : ℤ} (hq : 0 < q) (hn : 0 < n) (sv : Vec)
    (hsv : sv.length = n.toNat) {scale : ℤ} (hscale : 0 < scale)
    (r : ℕ → ℚ) (z : ℕ → ℤ) :
    ∀ fuel i : ℕ, ∃ els : List PublicKeyElement,
      keygenElems q n sv scale r z i fuel = .ok els ∧ els.length = fuel ∧
        (∀ el ∈ els, el.vector.length = n.toNat) ∧
        ((∀ j, 0 ≤ r j ∧ r j < 1) →
          ∀ el ∈ els, (∀ x ∈ el.vector, 0 ≤ x ∧ x < q) ∧
            0 ≤ el.scalar ∧ el.scalar < q) := by
  intro fuel
  induction fuel with
  | zero =>
    intro i
    exact ⟨[], rfl, rfl, by simp, by simp⟩
  | succ fuel ih =>
    intro i
    obtain ⟨els, hels, hlen, hveclen, hbnd⟩ := ih (i + 1)
    obtain ⟨vec, hvec, hveclen2, hvbnd⟩ :=
      sampleUniformVector_ok hq hn r (n.toNat + i * n.toNat)
    have hsn : sampleNormal scale (z i) = .ok (z i) := by
      unfold sampleNormal
      rw [if_neg (by omega)]
    refine ⟨⟨vec, mod ((List.zipWith (· * ·) vec sv).sum + z i) q⟩ :: els,
      ?_, by simp [hlen], ?_, ?_⟩
    · simp only [keygenElems, hvec, hsn, dotProduct_ok (hveclen2.trans hsv.symm), hels]
    · intro el hel
      rcases List.mem_cons.1 hel with h | h
      · subst h; exact hveclen2
      · exact hveclen el h
    · intro hr el hel
      rcases List.mem_cons.1 hel with h | h
      · subst h
        exact ⟨hvbnd hr, (mod_bounds _ hq).1, (mod_bounds _ hq).2⟩
      · exact hbnd hr el h

theorem keygen_ok {n q : ℤ} (r : ℕ → ℚ) (z : ℕ → ℤ) (hn : 1 < n)
    (hsz : n * n ≤ q) (hp : Nat.Prime q.toNat) :
    ∃ (sk : SecretKey) (pk : PublicKey),
      keygen n q r z = .ok (sk, pk) ∧
      sk.vector.length = n.toNat ∧ sk.n = n ∧ sk.q = q ∧
      pk.elements.length = keygenM n q ∧ pk.n = n ∧ pk.q = q ∧
      (∀ el ∈ pk.elements, el.vector.length = n.toNat) ∧
      ((∀ i, 0 ≤ r i ∧ r i < 1) →
        (∀ x ∈ sk.vector, 0 ≤ x ∧ x < q) ∧
        ∀ el ∈ pk.elements, (∀ x ∈ el.vector, 0 ≤ x ∧ x < q) ∧
          0 ≤ el.scalar ∧ el.scalar < q) := by
  have hnn : 0 < n * n := by positivity
  have hq : 0 < q := by omega
  have hscale : 0 < noiseScale n q := by
    have h1 := one_le_noiseScale n q (by omega) hsz
    omega
  obtain ⟨sv, hsv, hsvlen, hsvbnd⟩ :=
    sampleUniformVector_ok (n := n) hq (by omega) r 0
  obtain ⟨els, hels, hellen, hvlen, hbnd⟩ :=
    keygenElems_ok (n := n) hq (by omega) sv hsvlen hscale r z (keygenM n q) 0
  have hpr : isPrime q = true := (isPrime_iff q).2 hp
  refine ⟨⟨sv, n, q⟩, ⟨els, n, q⟩, ?_, hsvlen, rfl, rfl, hellen, rfl, rfl,
    hvlen, fun hr => ⟨hsvbnd hr, fun el hel => hbnd hr el hel⟩⟩
  unfold keygen
  rw [if_neg (by omega : ¬ n ≤ 1), if_neg (by omega : ¬ q < n * n),
    if_neg (by simp [hpr] : ¬ isPrime q = false), hsv]
  simp only [hels]

/-- C2: for every `n > 1` and prime `q ≥ n²`, with the uniform oracle in the
`Math.random()` range `[0, 1)`, `keygen n q` succeeds with a secret key of
vector length `n` whose coordinates lie in `[0, q)`, and a public key of
exactly `m = ⌊n·ln q⌋` elements, each with a vector of length `n`, all
coordinates in `[0, q)`, and a scalar in `[0, q)`. -/
theorem keygen_shapes (n q : ℤ) (r : ℕ → ℚ) (z : ℕ → ℤ) (hn : 1 < n)
    (hsz : n * n ≤ q) (hp : Nat.Prime q.toNat) (hr : ∀ i, 0 ≤ r i ∧ r i < 1) :
    ∃ (sk : SecretKey) (pk : PublicKey),
      keygen n q r z = .ok (sk, pk) ∧
      sk.vector.length = n.toNat ∧
      (∀ x ∈ sk.vector, 0 ≤ x ∧ x < q) ∧
      pk.elements.length = keygenM n q ∧
      ∀ el ∈ pk.elements,
        el.vector.length = n.toNat ∧ (∀ x ∈ el.vector, 0 ≤ x ∧ x < q) ∧
          0 ≤ el.scalar ∧ el.scalar < q := by
  obtain ⟨sk, pk, hok, h1, -, -, h2, -, -, h3, h4⟩ := keygen_ok r z hn hsz hp
  obtain ⟨h5, h6⟩ := h4 hr
  exact ⟨sk, pk, hok, h1, h5, h2, fun el hel =>
    ⟨h3 el hel, (h6 el hel).1, (h6 el hel).2.1, (h6 el hel).2.2⟩⟩

/-- Witness for C2 at `n = 2`, `q = 5`, constant-zero oracles. -/
theorem keygen_shapes_witness :
    (1 : ℤ) < 2 ∧ (2 : ℤ) * 2 ≤ 5 ∧ Nat.Prime (5 : ℤ).toNat ∧
      (∀ _ : ℕ, (0 : ℚ) ≤ 0 ∧ (0 : ℚ) < 1) ∧
      ∃ (sk : SecretKey) (pk : PublicKey),
        keygen 2 5 (fun _ => 0) (fun _ => 0) = .ok (sk, pk) ∧
        sk.vector.length = (2 : ℤ).toNat ∧
        (∀ x ∈ sk.vector, 0 ≤ x ∧ x < 5) ∧
        pk.elements.length = keygenM 2 5 ∧
        ∀ el ∈ pk.elements,
          el.vector.length = (2 : ℤ).toNat ∧ (∀ x ∈ el.vector, 0 ≤ x ∧ x < 5) ∧
            0 ≤ el.scalar ∧ el.scalar < 5 :=
  ⟨by decide, by decide, by decide, fun _ => ⟨by decide, by decide⟩,
    keygen_shapes 2 5 (fun _ => 0) (fun _ => 0) (by decide) (by decide)
      (by decide) (fun _ => ⟨by norm_num, by norm_num⟩)⟩

/-- C6: `keygen` raises `invalidDimension` when `n ≤ 1`, `modulusTooSmall`
when `n > 1` but `q < n²`, `modulusNotPrime` when `n > 1`, `q ≥ n²` but `q`
is not prime — three distinct errors, checked in that order — and succeeds
(no parameter error) whenever none of the three conditions is violated. -/
theorem keygen_guard_errors :
    (∀ (n q : ℤ) (r : ℕ → ℚ) (z : ℕ → ℤ), n ≤ 1 →
      keygen n q r z = .error .invalidDimension) ∧
    (∀ (n q : ℤ) (r : ℕ → ℚ) (z : ℕ → ℤ), 1 < n → q < n * n →
      keygen n q r z = .error .modulusTooSmall) ∧
    (∀ (n q : ℤ) (r : ℕ → ℚ) (z : ℕ → ℤ), 1 < n → n * n ≤ q →
      ¬ Nat.Prime q.toNat → keygen n q r z = .error .modulusNotPrime) ∧
    (∀ (n q : ℤ) (r : ℕ → ℚ) (z : ℕ → ℤ), 1 < n → n * n ≤ q →
      Nat.Prime q.toNat → ∃ out, keygen n q r z = .ok out) := by
  refine ⟨fun n q r z h => ?_, fun n q r z h1 h2 => ?_,
    fun n q r z h1 h2 h3 => ?_, fun n q r z h1 h2 h3 => ?_⟩
  · unfold keygen
    rw [if_pos h]
  · unfold keygen
    rw [if_neg (by omega), if_pos h2]
  · unfold keygen
    rw [if_neg (by omega), if_neg (by omega),
      if_pos ((isPrime_eq_false_iff q).2 h3)]
  · obtain ⟨sk, pk, hok, -⟩ := keygen_ok r z h1 h2 h3
    exact ⟨(sk, pk), hok⟩

/-- Witness for C6: the `invalidDimension` branch at `n = 1`, and the
success branch at `n = 2`, `q = 5`. -/
theorem keygen_guard_errors_witness :
    ((1 : ℤ) ≤ 1 ∧
      keygen 1 7 (fun _ => 0) (fun _ => 0) = .error .invalidDimension) ∧
    ((1 : ℤ) < 2 ∧ (2 : ℤ) * 2 ≤ 5 ∧ Nat.Prime (5 : ℤ).toNat ∧
      ∃ out, keygen 2 5 (fun _ => 0) (fun _ => 0) = .ok out) :=
  ⟨⟨by decide, keygen_guard_errors.1 1 7 (fun _ => 0) (fun _ => 0) (by decide)⟩,
    ⟨by decide, by decide, by decide,
      keygen_guard_errors.2.2.2 2 5 (fun _ => 0) (fun _ => 0) (by decide)
        (by decide) (by decide)⟩⟩

/-- C10: for every `n > 1` and prime `q ≥ n²`, the noise scale
`⌊alpha · q⌋ = ⌊q / (√n · (ln n)²)⌋` that `keygen` passes to the Gaussian
sampler is at least 1, so `sampleNormal`'s invalid-parameter branch
(standard deviation ≤ 0) is unreachable from any valid `keygen` call. -/
theorem noiseScale_ge_one (n q : ℤ) (hn : 1 < n) (hsz : n * n ≤ q)
    (_hp : Nat.Prime q.toNat) :
    1 ≤ noiseScale n q ∧ ∀ z : ℤ, sampleNormal (noiseScale n q) z = .ok z := by
  have h1 := one_le_noiseScale n q (by omega) hsz
  refine ⟨h1, fun z => ?_⟩
  unfold sampleNormal
  rw [if_neg (by omega)]

/-- Witness for C10 at `n = 2`, `q = 5`. -/
theorem noiseScale_ge_one_witness :
    (1 : ℤ) < 2 ∧ (2 : ℤ) * 2 ≤ 5 ∧ Nat.Prime (5 : ℤ).toNat ∧
      (1 ≤ noiseScale 2 5 ∧
        ∀ z : ℤ, sampleNormal (noiseScale 2 5) z = .ok z) :=
  ⟨by decide, by decide, by decide,
    noiseScale_ge_one 2 5 (by decide) (by decide) (by decide)⟩

end LWE

